import Mathlib

/-!
Shallow embedding of the Battleship repository (src/battleship/models.py and
src/battleship/game.py) and proofs of its specified properties.

Python object identity is modelled with an arena: `Board.heap` is the list of
all `Ship` records ever created, and a "reference" to a ship is its index
(`ShipId`).  The position-keyed dict `Board._ships` becomes an association
list from `Position` to `ShipId`; the placement-order list
`Board._initial_ships_order` becomes a list of ids.  Exceptions become
`Except BoardError`.
-/

namespace Battleship

/-- models.py `Orientation`: closed enumeration N, E, S, W. -/
inductive Orientation where
  | N
  | E
  | S
  | W
  deriving DecidableEq, Repr

/-- models.py `Orientation.rotate_left`: 90 degrees counter-clockwise. -/
def Orientation.rotate_left : Orientation → Orientation
  | .N => .W
  | .W => .S
  | .S => .E
  | .E => .N

/-- models.py `Orientation.rotate_right`: 90 degrees clockwise. -/
def Orientation.rotate_right : Orientation → Orientation
  | .N => .E
  | .E => .S
  | .S => .W
  | .W => .N

/-- models.py `Orientation.to_vector`: change in (x, y) for one step. -/
def Orientation.to_vector : Orientation → Int × Int
  | .N => (0, 1)
  | .E => (1, 0)
  | .S => (0, -1)
  | .W => (-1, 0)

/-- Python `Enum.name` for `Orientation`. -/
def Orientation.name : Orientation → String
  | .N => "N"
  | .E => "E"
  | .S => "S"
  | .W => "W"

/-- models.py `MoveCommand`: L, R, M. -/
inductive MoveCommand where
  | L
  | R
  | M
  deriving DecidableEq, Repr

/-- models.py `Position`: frozen dataclass of two ints. -/
structure Position where
  x : Int
  y : Int
  deriving DecidableEq, Repr

/-- models.py `Position.move`: the position one step away in `orientation`. -/
def Position.move (p : Position) (o : Orientation) : Position :=
  ⟨p.x + o.to_vector.1, p.y + o.to_vector.2⟩

/-- models.py `Ship`: mutable dataclass (here a value updated in the arena). -/
structure Ship where
  position : Position
  orientation : Orientation
  sunk : Bool := false
  deriving DecidableEq, Repr

instance : Inhabited Ship := ⟨⟨⟨0, 0⟩, .N, false⟩⟩

/-- models.py `Ship.rotate_left`. -/
def Ship.rotate_left (s : Ship) : Ship :=
  { s with orientation := s.orientation.rotate_left }

/-- models.py `Ship.rotate_right`. -/
def Ship.rotate_right (s : Ship) : Ship :=
  { s with orientation := s.orientation.rotate_right }

/-- models.py `Ship.move_forward`. -/
def Ship.move_forward (s : Ship) : Ship :=
  { s with position := s.position.move s.orientation }

/-- models.py `Ship.sink`. -/
def Ship.sink (s : Ship) : Ship :=
  { s with sunk := true }

/-- models.py `Ship.__str__`: "(x, y, ORIENTATION)" plus " SUNK" when sunk. -/
def Ship.toStr (s : Ship) : String :=
  "(" ++ toString s.position.x ++ ", " ++ toString s.position.y ++ ", "
    ++ s.orientation.name ++ ")" ++ (if s.sunk then " SUNK" else "")

/-- A reference to a Python `Ship` object: its index in the arena. -/
abbrev ShipId := Nat

/-- Python `dict.get` on the position-keyed ship map. -/
def dictGet : List (Position × ShipId) → Position → Option ShipId
  | [], _ => none
  | (q, i) :: rest, p => if q = p then some i else dictGet rest p

/-- Python `dict[k] = v`: replace in place if the key exists, else append. -/
def dictInsert : List (Position × ShipId) → Position → ShipId → List (Position × ShipId)
  | [], p, i => [(p, i)]
  | (q, j) :: rest, p, i =>
      if q = p then (p, i) :: rest else (q, j) :: dictInsert rest p i

/-- Python `del dict[k]`: remove the entry with key `p` (keys are unique). -/
def dictErase : List (Position × ShipId) → Position → List (Position × ShipId)
  | [], _ => []
  | (q, j) :: rest, p => if q = p then rest else (q, j) :: dictErase rest p

/-- game.py `BoardError`, split by the distinct raise sites and messages. -/
inductive BoardError where
  | placementOutOfBounds (p : Position)
  | placementOccupied (p : Position)
  | noShipAtStart (p : Position)
  | moveOutOfBounds (target : Position) (step : Nat)
  | collision (p : Position) (withShip : ShipId)
  deriving DecidableEq, Repr

/-- game.py `Board`: size, position-keyed ship map, placement order, plus the
arena of all ship objects ever created (`heap`). -/
structure Board where
  size : Int
  heap : List Ship
  ships : List (Position × ShipId)
  initial_ships_order : List ShipId
  deriving DecidableEq, Repr

/-- game.py `Board.__post_init__` state: empty map and order list. -/
def Board.empty (size : Int) : Board :=
  ⟨size, [], [], []⟩

/-- game.py `Board.is_within_bounds`. -/
def Board.is_within_bounds (b : Board) (p : Position) : Bool :=
  decide (0 ≤ p.x ∧ p.x < b.size ∧ 0 ≤ p.y ∧ p.y < b.size)

/-- game.py `Board.add_ship`: bounds check, occupancy check, then register the
ship in the map and the order list.  The new object gets the fresh id
`b.heap.length`. -/
def Board.add_ship (b : Board) (s : Ship) : Except BoardError Board :=
  if ¬ b.is_within_bounds s.position then
    .error (.placementOutOfBounds s.position)
  else
    match dictGet b.ships s.position with
    | some _ => .error (.placementOccupied s.position)
    | none =>
        .ok { b with
          heap := b.heap ++ [s]
          ships := dictInsert b.ships s.position b.heap.length
          initial_ships_order := b.initial_ships_order ++ [b.heap.length] }

/-- game.py `Board.get_ship_at` (returning the reference). -/
def Board.get_ship_at (b : Board) (p : Position) : Option ShipId :=
  dictGet b.ships p

/-- One iteration of the loop body of game.py `Board._simulate_move`:
`i` is the 0-based index of `command` in the sequence. -/
def Board.sim_step (b : Board) (s : Ship) (command : MoveCommand) (i : Nat) :
    Except BoardError Ship :=
  match command with
  | .L => .ok s.rotate_left
  | .R => .ok s.rotate_right
  | .M =>
      let potential_next_pos := s.position.move s.orientation
      if ¬ b.is_within_bounds potential_next_pos then
        .error (.moveOutOfBounds potential_next_pos (i + 1))
      else
        .ok s.move_forward

/-- The loop of game.py `Board._simulate_move`, starting at step index `i`. -/
def Board.simulate_from (b : Board) (s : Ship) (sequence : List MoveCommand)
    (i : Nat) : Except BoardError Ship :=
  match sequence with
  | [] => .ok s
  | c :: rest =>
      match b.sim_step s c i with
      | .error e => .error e
      | .ok s' => b.simulate_from s' rest (i + 1)

/-- game.py `Board._simulate_move`: runs the sequence on a detached copy
`Ship(position, orientation)` (sunk defaults to false). -/
def Board.simulate_move (b : Board) (start_ship_state : Ship)
    (sequence : List MoveCommand) : Except BoardError Ship :=
  b.simulate_from ⟨start_ship_state.position, start_ship_state.orientation, false⟩
    sequence 0

/-- game.py `Board.apply_move_sequence`. -/
def Board.apply_move_sequence (b : Board) (start_pos : Position)
    (sequence : List MoveCommand) : Except BoardError Board :=
  match dictGet b.ships start_pos with
  | none => .error (.noShipAtStart start_pos)
  | some i =>
      match b.heap[i]? with
      | none => .error (.noShipAtStart start_pos)
      | some ship_to_move =>
          if ship_to_move.sunk then
            .ok b
          else
            let original_position := ship_to_move.position
            match b.simulate_move ship_to_move sequence with
            | .error e => .error e
            | .ok fin =>
                let final_position := fin.position
                let commit : Except BoardError Board :=
                  let newShip : Ship :=
                    { ship_to_move with
                      position := final_position
                      orientation := fin.orientation }
                  let heap' := b.heap.set i newShip
                  if final_position ≠ original_position then
                    let m1 :=
                      if dictGet b.ships original_position = some i then
                        dictErase b.ships original_position
                      else b.ships
                    .ok { b with
                          heap := heap'
                          ships := dictInsert m1 final_position i }
                  else
                    .ok { b with heap := heap' }
                match dictGet b.ships final_position with
                | some j =>
                    if final_position ≠ original_position ∧ j ≠ i then
                      .error (.collision final_position j)
                    else commit
                | none => commit

/-- game.py `Board.apply_shoot`: total, never raises. -/
def Board.apply_shoot (b : Board) (target_pos : Position) : Board :=
  if ¬ b.is_within_bounds target_pos then
    b
  else
    match dictGet b.ships target_pos with
    | none => b
    | some i =>
        match b.heap[i]? with
        | none => b
        | some ship_hit =>
            if ¬ ship_hit.sunk then
              { b with heap := b.heap.set i ship_hit.sink }
            else
              b

/-- game.py `Board.get_final_ship_states`: render every ship in original
placement order. -/
def Board.get_final_ship_states (b : Board) : List String :=
  b.initial_ships_order.map (fun i => ((b.heap[i]?).getD default).toStr)

/-- One parsed operation, as the executor in main.py feeds them to the board. -/
inductive Op where
  | add (s : Ship)
  | move (p : Position) (sequence : List MoveCommand)
  | shoot (p : Position)
  deriving DecidableEq, Repr

/-- Applying one operation with the error policy of §7: a failed operation is
logged and skipped, leaving the board as it was. -/
def runOp (b : Board) (op : Op) : Board :=
  match op with
  | .add s =>
      match b.add_ship s with
      | .ok b' => b'
      | .error _ => b
  | .move p sequence =>
      match b.apply_move_sequence p sequence with
      | .ok b' => b'
      | .error _ => b
  | .shoot p => b.apply_shoot p

/-- Running a whole operation list in order. -/
def run (b : Board) (ops : List Op) : Board :=
  ops.foldl runOp b

/-! ### Helper lemmas about the dict model -/

theorem dictGet_some_mem {m : List (Position × ShipId)} {p : Position} {i : ShipId}
    (h : dictGet m p = some i) : (p, i) ∈ m := by
  induction m with
  | nil => simp [dictGet] at h
  | cons e rest ih =>
      obtain ⟨q, j⟩ := e
      unfold dictGet at h
      by_cases hq : q = p
      · simp [hq] at h
        subst hq h
        exact List.mem_cons_self _ _
      · simp [hq] at h
        exact List.mem_cons_of_mem _ (ih h)

theorem dictGet_none_iff {m : List (Position × ShipId)} {p : Position} :
    dictGet m p = none ↔ ∀ e ∈ m, e.1 ≠ p := by
  induction m with
  | nil => simp [dictGet]
  | cons e rest ih =>
      obtain ⟨q, j⟩ := e
      unfold dictGet
      by_cases hq : q = p
      · simp [hq]
      · simp [hq, ih]

theorem dictInsert_of_get_none {m : List (Position × ShipId)} {p : Position}
    (h : dictGet m p = none) (i : ShipId) :
    dictInsert m p i = m ++ [(p, i)] := by
  induction m with
  | nil => simp [dictInsert]
  | cons e rest ih =>
      obtain ⟨q, j⟩ := e
      unfold dictGet at h
      unfold dictInsert
      by_cases hq : q = p
      · simp [hq] at h
      · simp [hq] at h ⊢
        exact ih h

theorem dictGet_split {m : List (Position × ShipId)} {p : Position} {i : ShipId}
    (h : dictGet m p = some i) :
    ∃ m1 m2, m = m1 ++ (p, i) :: m2 ∧ dictErase m p = m1 ++ m2 ∧
      ∀ e ∈ m1, e.1 ≠ p := by
  induction m with
  | nil => simp [dictGet] at h
  | cons e rest ih =>
      obtain ⟨q, j⟩ := e
      unfold dictGet at h
      by_cases hq : q = p
      · simp [hq] at h
        subst hq h
        exact ⟨[], rest, by simp [dictErase]⟩
      · simp [hq] at h
        obtain ⟨m1, m2, hm, he, hne⟩ := ih h
        refine ⟨(q, j) :: m1, m2, by simp [hm], ?_, ?_⟩
        · unfold dictErase
          simp [hq, he]
        · intro e he'
          rcases List.mem_cons.mp he' with rfl | hmem
          · exact hq
          · exact hne e hmem

/-- Every error raised inside `_simulate_move` is an out-of-bounds step error. -/
theorem simulate_from_error {b : Board} {s : Ship} {seq : List MoveCommand}
    {i : Nat} {e : BoardError} (h : b.simulate_from s seq i = .error e) :
    ∃ t k, e = .moveOutOfBounds t k := by
  induction seq generalizing s i with
  | nil => simp [Board.simulate_from] at h
  | cons c rest ih =>
      unfold Board.simulate_from at h
      cases hstep : b.sim_step s c i with
      | error e' =>
          rw [hstep] at h
          simp at h
          subst h
          cases c <;> unfold Board.sim_step at hstep <;> try simp at hstep
          revert hstep
          split
          · intro hstep
            simp at hstep
            exact ⟨_, _, hstep.symm⟩
          · intro hstep
            simp at hstep
      | ok s' =>
          rw [hstep] at h
          simp at h
          exact ih h

/-! ### Claim theorems -/

/-- C7: rotation algebra — `rotate_left` and `rotate_right` are mutual
inverses, four applications of either are the identity, `rotate_left` cycles
N→W→S→E→N and `rotate_right` cycles N→E→S→W→N. -/
theorem rotate_left_right_algebra :
    (∀ o : Orientation, o.rotate_right.rotate_left = o) ∧
    (∀ o : Orientation, o.rotate_left.rotate_right = o) ∧
    (∀ o : Orientation, o.rotate_left.rotate_left.rotate_left.rotate_left = o) ∧
    (∀ o : Orientation, o.rotate_right.rotate_right.rotate_right.rotate_right = o) ∧
    Orientation.N.rotate_left = .W ∧ Orientation.W.rotate_left = .S ∧
    Orientation.S.rotate_left = .E ∧ Orientation.E.rotate_left = .N ∧
    Orientation.N.rotate_right = .E ∧ Orientation.E.rotate_right = .S ∧
    Orientation.S.rotate_right = .W ∧ Orientation.W.rotate_right = .N := by
  refine ⟨fun o => ?_, fun o => ?_, fun o => ?_, fun o => ?_,
    rfl, rfl, rfl, rfl, rfl, rfl, rfl, rfl⟩ <;> cases o <;> rfl

/-- C8: translation geometry — `to_vector` maps N to (0,+1), E to (+1,0),
S to (0,-1), W to (-1,0); `move p o` is `p` plus `to_vector o`, changing
exactly one coordinate by exactly ±1, for every integer position. -/
theorem move_to_vector_geometry :
    Orientation.N.to_vector = (0, 1) ∧ Orientation.E.to_vector = (1, 0) ∧
    Orientation.S.to_vector = (0, -1) ∧ Orientation.W.to_vector = (-1, 0) ∧
    ∀ (p : Position) (o : Orientation),
      p.move o = ⟨p.x + o.to_vector.1, p.y + o.to_vector.2⟩ ∧
      (((p.move o).x = p.x ∧ ((p.move o).y = p.y + 1 ∨ (p.move o).y = p.y - 1)) ∨
       ((p.move o).y = p.y ∧ ((p.move o).x = p.x + 1 ∨ (p.move o).x = p.x - 1))) := by
  refine ⟨rfl, rfl, rfl, rfl, fun p o => ⟨rfl, ?_⟩⟩
  cases o <;> simp [Position.move, Orientation.to_vector] <;> omega

/-- C3: moving a sunk ship is a silent no-op — if the ship found at the start
position is sunk, `apply_move_sequence` returns the board unchanged, with no
error, for any command sequence. -/
theorem apply_move_sequence_sunk_noop (b : Board) (p : Position)
    (seq : List MoveCommand) (i : ShipId) (s : Ship)
    (hget : dictGet b.ships p = some i) (hheap : b.heap[i]? = some s)
    (hsunk : s.sunk = true) :
    b.apply_move_sequence p seq = .ok b := by
  unfold Board.apply_move_sequence
  rw [hget]
  simp [hheap, hsunk]

/-- Witness for C3 at a concrete board: one sunk ship at (0, 0). -/
theorem apply_move_sequence_sunk_noop_witness :
    (Board.mk 5 [⟨⟨0, 0⟩, .N, true⟩] [(⟨0, 0⟩, 0)] [0]).apply_move_sequence
      ⟨0, 0⟩ [.M, .L]
      = .ok (Board.mk 5 [⟨⟨0, 0⟩, .N, true⟩] [(⟨0, 0⟩, 0)] [0]) :=
  apply_move_sequence_sunk_noop _ _ _ 0 ⟨⟨0, 0⟩, .N, true⟩
    (by decide) (by decide) rfl

/-- C10: no bounds check on the start position — whenever no ship is keyed at
the start position (even a position far outside the board), the call raises
the "no ship found at starting position" error and the board is unchanged. -/
theorem apply_move_sequence_no_ship (b : Board) (p : Position)
    (seq : List MoveCommand) (h : dictGet b.ships p = none) :
    b.apply_move_sequence p seq = .error (.noShipAtStart p) ∧
    runOp b (.move p seq) = b := by
  have h1 : b.apply_move_sequence p seq = .error (.noShipAtStart p) := by
    unfold Board.apply_move_sequence
    rw [h]
  exact ⟨h1, by simp [runOp, h1]⟩

/-- Witness for C10 at a concrete input: an out-of-bounds start position on an
empty board raises the no-ship error (not any out-of-bounds error). -/
theorem apply_move_sequence_no_ship_witness :
    (Board.empty 10).apply_move_sequence ⟨-5, 99⟩ [.M]
        = .error (.noShipAtStart ⟨-5, 99⟩) ∧
      runOp (Board.empty 10) (.move ⟨-5, 99⟩ [.M]) = Board.empty 10 :=
  apply_move_sequence_no_ship (Board.empty 10) ⟨-5, 99⟩ [.M] (by decide)

/-- C1: move atomicity — whenever `apply_move_sequence` raises, the executor
leaves the board exactly as it was (every ship, the position map, and the
placement-order list), and the error is one of: no ship at the start, an
out-of-bounds M step, or a final-destination collision. -/
theorem apply_move_sequence_atomic (b : Board) (p : Position)
    (seq : List MoveCommand) (e : BoardError)
    (h : b.apply_move_sequence p seq = .error e) :
    runOp b (.move p seq) = b ∧
    (runOp b (.move p seq)).heap = b.heap ∧
    (runOp b (.move p seq)).ships = b.ships ∧
    (runOp b (.move p seq)).initial_ships_order = b.initial_ships_order ∧
    (e = .noShipAtStart p ∨ (∃ t k, e = .moveOutOfBounds t k) ∨
      ∃ q j, e = .collision q j) := by
  have hrun : runOp b (.move p seq) = b := by simp [runOp, h]
  refine ⟨hrun, by rw [hrun], by rw [hrun], by rw [hrun], ?_⟩
  unfold Board.apply_move_sequence at h
  cases hget : dictGet b.ships p with
  | none =>
      rw [hget] at h
      simp at h
      exact Or.inl h.symm
  | some i =>
      rw [hget] at h
      simp only [] at h
      cases hh : b.heap[i]? with
      | none =>
          rw [hh] at h
          simp at h
          exact Or.inl h.symm
      | some ship =>
          rw [hh] at h
          by_cases hs : ship.sunk
          · simp [hs] at h
          · simp only [hs, if_false, Bool.false_eq_true] at h
            cases hsim : b.simulate_move ship seq with
            | error e' =>
                rw [hsim] at h
                simp at h
                subst h
                unfold Board.simulate_move at hsim
                exact Or.inr (Or.inl (simulate_from_error hsim))
            | ok fin =>
                rw [hsim] at h
                simp only [] at h
                cases hcol : dictGet b.ships fin.position with
                | none =>
                    rw [hcol] at h
                    simp at h
                    split at h <;> simp at h
                | some j =>
                    rw [hcol] at h
                    simp only [] at h
                    split at h
                    · simp at h
                      exact Or.inr (Or.inr ⟨fin.position, j, h.symm⟩)
                    · simp at h
                      split at h <;> simp at h

/-- Witness for C1 at a concrete input: a ship at (0, 0) facing S on a 2x2
board; the single M step leaves the board, the call errors, and the executor
leaves the board unchanged. -/
theorem apply_move_sequence_atomic_witness :
    runOp (Board.mk 2 [⟨⟨0, 0⟩, .S, false⟩] [(⟨0, 0⟩, 0)] [0])
        (.move ⟨0, 0⟩ [.M])
      = Board.mk 2 [⟨⟨0, 0⟩, .S, false⟩] [(⟨0, 0⟩, 0)] [0] :=
  (apply_move_sequence_atomic _ ⟨0, 0⟩ [.M] (.moveOutOfBounds ⟨0, -1⟩ 1)
    (by rfl)).1

/-- C4: `apply_shoot` never raises (it is total) and acts exactly as: no-op on
out-of-bounds targets, no-op on empty cells, no-op on already-sunk occupants;
on an unsunk occupant it sets only that ship's sunk flag, leaving its position
and orientation, every other ship, the position map and the order list
unchanged; and shooting the same cell a second time changes nothing more. -/
theorem apply_shoot_spec (b : Board) (t : Position) :
    (b.is_within_bounds t = false → b.apply_shoot t = b) ∧
    (dictGet b.ships t = none → b.apply_shoot t = b) ∧
    (∀ i s, dictGet b.ships t = some i → b.heap[i]? = some s → s.sunk = true →
        b.apply_shoot t = b) ∧
    (∀ i s, b.is_within_bounds t = true → dictGet b.ships t = some i →
        b.heap[i]? = some s → s.sunk = false →
        (b.apply_shoot t).size = b.size ∧
        (b.apply_shoot t).ships = b.ships ∧
        (b.apply_shoot t).initial_ships_order = b.initial_ships_order ∧
        (b.apply_shoot t).heap[i]? = some ⟨s.position, s.orientation, true⟩ ∧
        ∀ j, j ≠ i → (b.apply_shoot t).heap[j]? = b.heap[j]?) ∧
    (b.apply_shoot t).apply_shoot t = b.apply_shoot t := by
  refine ⟨?_, ?_, ?_, ?_, ?_⟩
  · intro hb
    unfold Board.apply_shoot
    simp [hb]
  · intro hget
    unfold Board.apply_shoot
    rw [hget]
    simp
  · intro i s hget hheap hsunk
    unfold Board.apply_shoot
    rw [hget]
    simp [hheap, hsunk]
  · intro i s hb hget hheap hsunk
    have hlt : i < b.heap.length := by
      by_contra hge
      rw [List.getElem?_eq_none (Nat.le_of_not_lt hge)] at hheap
      exact Option.noConfusion hheap
    have happ : b.apply_shoot t = { b with heap := b.heap.set i s.sink } := by
      unfold Board.apply_shoot
      rw [hget]
      simp [hb, hheap, hsunk, Ship.sink]
    rw [happ]
    refine ⟨rfl, rfl, rfl, ?_, ?_⟩
    · simpa [Ship.sink] using List.getElem?_set_self (a := s.sink) hlt
    · intro j hj
      exact List.getElem?_set_ne (Ne.symm hj)
  · by_cases hb : b.is_within_bounds t
    · cases hget : dictGet b.ships t with
      | none =>
          have h1 : b.apply_shoot t = b := by
            unfold Board.apply_shoot
            rw [hget]
            simp
          rw [h1, h1]
      | some i =>
          cases hheap : b.heap[i]? with
          | none =>
              have h1 : b.apply_shoot t = b := by
                unfold Board.apply_shoot
                rw [hget]
                simp [hheap]
              rw [h1, h1]
          | some s =>
              by_cases hs : s.sunk
              · have h1 : b.apply_shoot t = b := by
                  unfold Board.apply_shoot
                  rw [hget]
                  simp [hheap, hs]
                rw [h1, h1]
              · have hlt : i < b.heap.length := by
                  by_contra hge
                  rw [List.getElem?_eq_none (Nat.le_of_not_lt hge)] at hheap
                  exact Option.noConfusion hheap
                have hs' : s.sunk = false := by
                  simpa using hs
                have h1 : b.apply_shoot t = { b with heap := b.heap.set i s.sink } := by
                  unfold Board.apply_shoot
                  rw [hget]
                  simp [hb, hheap, hs', Ship.sink]
                have hset : (b.heap.set i
                      (⟨s.position, s.orientation, true⟩ : Ship))[i]?
                    = some ⟨s.position, s.orientation, true⟩ :=
                  List.getElem?_set_self hlt
                rw [h1]
                unfold Board.apply_shoot
                simp [Board.is_within_bounds] at hb
                simp [Board.is_within_bounds, hb, hget, hset, Ship.sink]
    · have hb' : b.is_within_bounds t = false := by
        simpa using hb
      have h1 : b.apply_shoot t = b := by
        unfold Board.apply_shoot
        simp [hb']
      rw [h1, h1]

/-- Witness for C4 at a concrete board: shooting an unsunk ship at (1, 2)
sinks exactly that ship and a second shot changes nothing. -/
theorem apply_shoot_spec_witness :
    ((Board.mk 4 [⟨⟨1, 2⟩, .E, false⟩] [(⟨1, 2⟩, 0)] [0]).apply_shoot
        ⟨1, 2⟩).heap[0]? = some ⟨⟨1, 2⟩, .E, true⟩ ∧
    ((Board.mk 4 [⟨⟨1, 2⟩, .E, false⟩] [(⟨1, 2⟩, 0)] [0]).apply_shoot
        ⟨1, 2⟩).ships = [(⟨1, 2⟩, 0)] := by
  have h := apply_shoot_spec (Board.mk 4 [⟨⟨1, 2⟩, .E, false⟩] [(⟨1, 2⟩, 0)] [0])
    ⟨1, 2⟩
  have h4 := h.2.2.2.1 0 ⟨⟨1, 2⟩, .E, false⟩ (by decide) (by decide) (by decide) rfl
  exact ⟨h4.2.2.2.1, h4.2.1⟩

/-- C5: `add_ship` fails exactly when the ship's position is out of bounds or
already occupied, leaving the board unchanged on failure; on success it
appends the ship to the arena unchanged (no field mutated), keys it in the
position map under its position, and appends it to the placement-order
list. -/
theorem add_ship_spec (b : Board) (s : Ship) :
    ((∃ e, b.add_ship s = .error e) ↔
      (b.is_within_bounds s.position = false ∨
        dictGet b.ships s.position ≠ none)) ∧
    (∀ e, b.add_ship s = .error e → runOp b (.add s) = b) ∧
    (∀ b', b.add_ship s = .ok b' →
        b'.size = b.size ∧
        b'.heap = b.heap ++ [s] ∧
        b'.heap[b.heap.length]? = some s ∧
        b'.ships = dictInsert b.ships s.position b.heap.length ∧
        b'.initial_ships_order = b.initial_ships_order ++ [b.heap.length]) := by
  by_cases hb : b.is_within_bounds s.position
  · cases hget : dictGet b.ships s.position with
    | some i =>
        have hadd : b.add_ship s = .error (.placementOccupied s.position) := by
          unfold Board.add_ship
          simp [hb, hget]
        refine ⟨⟨fun _ => Or.inr (by simp [hget]), fun _ => ⟨_, hadd⟩⟩, ?_, ?_⟩
        · intro e _
          simp [runOp, hadd]
        · intro b' hb'
          rw [hadd] at hb'
          exact absurd hb' (by simp)
    | none =>
        have hadd : b.add_ship s = .ok
            { b with
              heap := b.heap ++ [s]
              ships := dictInsert b.ships s.position b.heap.length
              initial_ships_order := b.initial_ships_order ++ [b.heap.length] } := by
          unfold Board.add_ship
          simp [hb, hget]
        refine ⟨?_, ?_, ?_⟩
        · simp [hadd, hb, hget]
        · intro e he
          rw [hadd] at he
          exact absurd he (by simp)
        · intro b' hb'
          rw [hadd] at hb'
          simp only [Except.ok.injEq] at hb'
          subst hb'
          exact ⟨rfl, rfl, List.getElem?_concat_length _ _, rfl, rfl⟩
  · have hbf : b.is_within_bounds s.position = false := by
      simpa using hb
    have hadd : b.add_ship s = .error (.placementOutOfBounds s.position) := by
      unfold Board.add_ship
      simp [hbf]
    refine ⟨⟨fun _ => Or.inl hbf, fun _ => ⟨_, hadd⟩⟩, ?_, ?_⟩
    · intro e _
      simp [runOp, hadd]
    · intro b' hb'
      rw [hadd] at hb'
      exact absurd hb' (by simp)

/-- Witness for C5 at concrete inputs: adding a ship on an occupied cell
leaves the board unchanged, and a successful add appends id 1 to the order
list. -/
theorem add_ship_spec_witness :
    runOp (Board.mk 3 [⟨⟨0, 0⟩, .N, false⟩] [(⟨0, 0⟩, 0)] [0])
        (.add ⟨⟨0, 0⟩, .S, false⟩)
      = Board.mk 3 [⟨⟨0, 0⟩, .N, false⟩] [(⟨0, 0⟩, 0)] [0] ∧
    (Board.mk 3 [⟨⟨0, 0⟩, .N, false⟩, ⟨⟨1, 1⟩, .E, false⟩]
        [(⟨0, 0⟩, 0), (⟨1, 1⟩, 1)] [0, 1]).initial_ships_order = [0, 1] :=
  ⟨(add_ship_spec (Board.mk 3 [⟨⟨0, 0⟩, .N, false⟩] [(⟨0, 0⟩, 0)] [0])
      ⟨⟨0, 0⟩, .S, false⟩).2.1 (.placementOccupied ⟨0, 0⟩) (by rfl),
   ((add_ship_spec (Board.mk 3 [⟨⟨0, 0⟩, .N, false⟩] [(⟨0, 0⟩, 0)] [0])
      ⟨⟨1, 1⟩, .E, false⟩).2.2
      (Board.mk 3 [⟨⟨0, 0⟩, .N, false⟩, ⟨⟨1, 1⟩, .E, false⟩]
        [(⟨0, 0⟩, 0), (⟨1, 1⟩, 1)] [0, 1]) (by rfl)).2.2.2.2⟩

/-! ### Characterizations of successful operations, and the board invariant -/

/-- A successful `add_ship` passed both checks and appended the new ship. -/
theorem add_ship_ok {b : Board} {s : Ship} {b' : Board}
    (h : b.add_ship s = .ok b') :
    b.is_within_bounds s.position = true ∧
    dictGet b.ships s.position = none ∧
    b' = { b with
           heap := b.heap ++ [s]
           ships := dictInsert b.ships s.position b.heap.length
           initial_ships_order := b.initial_ships_order ++ [b.heap.length] } := by
  unfold Board.add_ship at h
  by_cases hb : b.is_within_bounds s.position
  · cases hget : dictGet b.ships s.position with
    | some i =>
        rw [hget] at h
        simp [hb] at h
    | none =>
        rw [hget] at h
        rw [if_neg (by simp [hb])] at h
        simp only [Except.ok.injEq] at h
        exact ⟨hb, rfl, h.symm⟩
  · simp [hb] at h

/-- A successful `apply_move_sequence` either hit the sunk-ship no-op, or
found an unsunk ship, simulated without leaving the board, passed the
final-destination collision check, and committed. -/
theorem apply_move_sequence_ok {b : Board} {p : Position}
    {seq : List MoveCommand} {b' : Board}
    (h : b.apply_move_sequence p seq = .ok b') :
    b' = b ∨
    ∃ i ship fin,
      dictGet b.ships p = some i ∧ b.heap[i]? = some ship ∧
      ship.sunk = false ∧ b.simulate_move ship seq = .ok fin ∧
      (∀ j, dictGet b.ships fin.position = some j →
        fin.position ≠ ship.position → j = i) ∧
      ((fin.position = ship.position ∧
        b' = { b with
               heap := b.heap.set i ⟨fin.position, fin.orientation, false⟩ }) ∨
       (fin.position ≠ ship.position ∧
        b' = { b with
               heap := b.heap.set i ⟨fin.position, fin.orientation, false⟩
               ships := dictInsert
                 (if dictGet b.ships ship.position = some i then
                    dictErase b.ships ship.position
                  else b.ships) fin.position i })) := by
  unfold Board.apply_move_sequence at h
  cases hget : dictGet b.ships p with
  | none =>
      rw [hget] at h
      exact absurd h (by simp)
  | some i =>
      rw [hget] at h
      simp only [] at h
      cases hh : b.heap[i]? with
      | none =>
          rw [hh] at h
          exact absurd h (by simp)
      | some ship =>
          rw [hh] at h
          by_cases hs : ship.sunk
          · left
            simp [hs] at h
            exact h.symm
          · right
            have hs' : ship.sunk = false := by simpa using hs
            simp only [hs', Bool.false_eq_true, if_false] at h
            cases hsim : b.simulate_move ship seq with
            | error e =>
                rw [hsim] at h
                exact absurd h (by simp)
            | ok fin =>
                rw [hsim] at h
                simp only [] at h
                refine ⟨i, ship, fin, rfl, hh, hs', hsim, ?_, ?_⟩
                · intro j hj hne
                  rw [hj] at h
                  simp only [] at h
                  by_contra hji
                  rw [if_pos ⟨hne, hji⟩] at h
                  exact absurd h (by simp)
                · by_cases hfp : fin.position = ship.position
                  · left
                    refine ⟨hfp, ?_⟩
                    cases hcol : dictGet b.ships fin.position with
                    | some j =>
                        rw [hcol] at h
                        simp only [] at h
                        rw [if_neg (by simp [hfp])] at h
                        rw [if_neg (by simp [hfp])] at h
                        simpa using h.symm
                    | none =>
                        rw [hcol] at h
                        simp only [] at h
                        rw [if_neg (by simp [hfp])] at h
                        simpa using h.symm
                  · right
                    refine ⟨hfp, ?_⟩
                    cases hcol : dictGet b.ships fin.position with
                    | some j =>
                        rw [hcol] at h
                        simp only [] at h
                        have hji : j = i := by
                          by_contra hji
                          rw [if_pos ⟨hfp, hji⟩] at h
                          exact absurd h (by simp)
                        rw [if_neg (by simp [hji])] at h
                        rw [if_pos hfp] at h
                        simpa using h.symm
                    | none =>
                        rw [hcol] at h
                        simp only [] at h
                        rw [if_pos hfp] at h
                        simpa using h.symm

/-- `apply_shoot` either leaves the board alone or sinks the ship found at
the target. -/
theorem apply_shoot_cases (b : Board) (t : Position) :
    b.apply_shoot t = b ∨
    ∃ i ship, dictGet b.ships t = some i ∧ b.heap[i]? = some ship ∧
      b.apply_shoot t = { b with heap := b.heap.set i ship.sink } := by
  by_cases hb : b.is_within_bounds t
  · cases hget : dictGet b.ships t with
    | none =>
        left
        unfold Board.apply_shoot
        rw [hget]
        simp
    | some i =>
        cases hh : b.heap[i]? with
        | none =>
            left
            unfold Board.apply_shoot
            rw [hget]
            simp [hh]
        | some ship =>
            by_cases hs : ship.sunk
            · left
              unfold Board.apply_shoot
              rw [hget]
              simp [hh, hs]
            · right
              refine ⟨i, ship, rfl, hh, ?_⟩
              have hs' : ship.sunk = false := by simpa using hs
              unfold Board.apply_shoot
              rw [hget]
              simp [hb, hh, hs']
  · left
    have hbf : b.is_within_bounds t = false := by simpa using hb
    unfold Board.apply_shoot
    simp [hbf]

/-- On a map whose ids are distinct, the id determines the whole entry. -/
theorem snd_nodup_inj {m : List (Position × ShipId)}
    (h : (m.map Prod.snd).Nodup) {e f : Position × ShipId}
    (he : e ∈ m) (hf : f ∈ m) (hsnd : e.2 = f.2) : e = f :=
  List.inj_on_of_nodup_map h he hf hsnd

/-- The board invariant maintained by every operation: map keys are distinct,
each ship object is keyed at most once, every keyed id is a live arena index,
the keyed ship's own position agrees with its key, and the placement-order
list is exactly the arena indices in creation order. -/
structure WF (b : Board) : Prop where
  keys_nodup : (b.ships.map Prod.fst).Nodup
  ids_nodup : (b.ships.map Prod.snd).Nodup
  ids_lt : ∀ e ∈ b.ships, e.2 < b.heap.length
  pos_agree : ∀ e ∈ b.ships, ∃ s, b.heap[e.2]? = some s ∧ s.position = e.1
  order_eq : b.initial_ships_order = List.range b.heap.length

theorem wf_empty (size : Int) : WF (Board.empty size) := by
  constructor <;> simp [Board.empty]

theorem nodup_append_singleton {α : Type _} {l : List α} {a : α}
    (h : l.Nodup) (ha : a ∉ l) : (l ++ [a]).Nodup := by
  rw [List.nodup_append]
  refine ⟨h, List.nodup_singleton a, ?_⟩
  intro x hx hx2
  simp only [List.mem_singleton] at hx2
  subst hx2
  exact ha hx

/-- Erasing the entry found by `dictGet` keeps only other entries, all with a
different key and a different id, and preserves both nodup properties. -/
theorem erase_facts {m : List (Position × ShipId)} {p : Position} {i : ShipId}
    (hkeys : (m.map Prod.fst).Nodup) (hids : (m.map Prod.snd).Nodup)
    (h : dictGet m p = some i) :
    (∀ e ∈ dictErase m p, e ∈ m) ∧
    (∀ e ∈ dictErase m p, e.1 ≠ p) ∧
    (∀ e ∈ dictErase m p, e.2 ≠ i) ∧
    ((dictErase m p).map Prod.fst).Nodup ∧
    ((dictErase m p).map Prod.snd).Nodup := by
  obtain ⟨m1, m2, hm, herase, hm1⟩ := dictGet_split h
  subst hm
  rw [herase]
  have hsub : List.Sublist (m1 ++ m2) (m1 ++ (p, i) :: m2) :=
    (List.sublist_cons_self (p, i) m2).append_left m1
  have hkeys2 : ((m1 ++ m2).map Prod.fst).Nodup :=
    (hsub.map Prod.fst).nodup hkeys
  have hids2 : ((m1 ++ m2).map Prod.snd).Nodup :=
    (hsub.map Prod.snd).nodup hids
  have hkeyssplit : ((m1 ++ (p, i) :: m2).map Prod.fst).Nodup := hkeys
  rw [List.map_append, List.map_cons, List.nodup_append] at hkeyssplit
  have hidssplit := hids
  rw [List.map_append, List.map_cons, List.nodup_append] at hidssplit
  refine ⟨?_, ?_, ?_, hkeys2, hids2⟩
  · intro e he
    exact hsub.subset he
  · intro e he
    rcases List.mem_append.mp he with h1 | h2
    · exact hm1 e h1
    · intro hep
      have h3 : ((p, i).1 :: m2.map Prod.fst).Nodup := hkeyssplit.2.1
      rw [List.nodup_cons] at h3
      have h4 : e.1 ∈ m2.map Prod.fst := List.mem_map_of_mem Prod.fst h2
      rw [hep] at h4
      exact h3.1 h4
  · intro e he
    rcases List.mem_append.mp he with h1 | h2
    · intro hei
      have h4 : e.2 ∈ m1.map Prod.snd := List.mem_map_of_mem Prod.snd h1
      rw [hei] at h4
      exact hidssplit.2.2 h4 (by simp)
    · intro hei
      have h3 : ((p, i).2 :: m2.map Prod.snd).Nodup := hidssplit.2.1
      rw [List.nodup_cons] at h3
      have h4 : e.2 ∈ m2.map Prod.snd := List.mem_map_of_mem Prod.snd h2
      rw [hei] at h4
      exact h3.1 h4

theorem wf_add {b : Board} (hwf : WF b) (s : Ship) : WF (runOp b (.add s)) := by
  cases hadd : b.add_ship s with
  | error e =>
      have hrun : runOp b (.add s) = b := by simp [runOp, hadd]
      rw [hrun]
      exact hwf
  | ok b' =>
      have hrun : runOp b (.add s) = b' := by simp [runOp, hadd]
      rw [hrun]
      obtain ⟨hb, hget, hb'⟩ := add_ship_ok hadd
      subst hb'
      have hins : dictInsert b.ships s.position b.heap.length
          = b.ships ++ [(s.position, b.heap.length)] :=
        dictInsert_of_get_none hget _
      have hkeys : ∀ e ∈ b.ships, e.1 ≠ s.position := dictGet_none_iff.mp hget
      constructor
      · show ((dictInsert b.ships s.position b.heap.length).map Prod.fst).Nodup
        rw [hins, List.map_append]
        refine nodup_append_singleton hwf.keys_nodup ?_
        intro hmem
        obtain ⟨e, he, hfst⟩ := List.mem_map.mp hmem
        exact hkeys e he hfst
      · show ((dictInsert b.ships s.position b.heap.length).map Prod.snd).Nodup
        rw [hins, List.map_append]
        refine nodup_append_singleton hwf.ids_nodup ?_
        intro hmem
        obtain ⟨e, he, hsnd⟩ := List.mem_map.mp hmem
        exact absurd hsnd (Nat.ne_of_lt (hwf.ids_lt e he))
      · intro e he
        rw [hins] at he
        show e.2 < (b.heap ++ [s]).length
        rw [List.length_append, List.length_singleton]
        rcases List.mem_append.mp he with h1 | h2
        · exact Nat.lt_succ_of_lt (hwf.ids_lt e h1)
        · simp only [List.mem_singleton] at h2
          subst h2
          exact Nat.lt_succ_self _
      · intro e he
        rw [hins] at he
        rcases List.mem_append.mp he with h1 | h2
        · obtain ⟨s', hs', hsp⟩ := hwf.pos_agree e h1
          refine ⟨s', ?_, hsp⟩
          show (b.heap ++ [s])[e.2]? = some s'
          rw [List.getElem?_append_left (hwf.ids_lt e h1)]
          exact hs'
        · simp only [List.mem_singleton] at h2
          subst h2
          exact ⟨s, List.getElem?_concat_length _ _, rfl⟩
      · show b.initial_ships_order ++ [b.heap.length]
            = List.range (b.heap ++ [s]).length
        rw [List.length_append, List.length_singleton, List.range_succ,
          hwf.order_eq]

theorem wf_shoot {b : Board} (hwf : WF b) (t : Position) :
    WF (runOp b (.shoot t)) := by
  show WF (b.apply_shoot t)
  rcases apply_shoot_cases b t with heq | ⟨i, ship, hget, hh, heq⟩
  · rw [heq]
    exact hwf
  · rw [heq]
    have hmem : (t, i) ∈ b.ships := dictGet_some_mem hget
    have hlt : i < b.heap.length := hwf.ids_lt (t, i) hmem
    constructor
    · exact hwf.keys_nodup
    · exact hwf.ids_nodup
    · intro e he
      show e.2 < (b.heap.set i ship.sink).length
      rw [List.length_set]
      exact hwf.ids_lt e he
    · intro e he
      obtain ⟨s', hs', hsp⟩ := hwf.pos_agree e he
      by_cases hei : e.2 = i
      · have hse : s' = ship := by
          rw [hei, hh] at hs'
          exact (Option.some.injEq _ _ ▸ hs').symm
        refine ⟨ship.sink, ?_, ?_⟩
        · show (b.heap.set i ship.sink)[e.2]? = some ship.sink
          rw [hei]
          exact List.getElem?_set_self hlt
        · show ship.sink.position = e.1
          rw [← hsp, hse]
          rfl
      · refine ⟨s', ?_, hsp⟩
        show (b.heap.set i ship.sink)[e.2]? = some s'
        rw [List.getElem?_set_ne (Ne.symm hei)]
        exact hs'
    · show b.initial_ships_order = List.range (b.heap.set i ship.sink).length
      rw [List.length_set]
      exact hwf.order_eq

theorem wf_move {b : Board} (hwf : WF b) (p : Position)
    (seq : List MoveCommand) : WF (runOp b (.move p seq)) := by
  cases happ : b.apply_move_sequence p seq with
  | error e =>
      have hrun : runOp b (.move p seq) = b := by simp [runOp, happ]
      rw [hrun]
      exact hwf
  | ok b' =>
      have hrun : runOp b (.move p seq) = b' := by simp [runOp, happ]
      rw [hrun]
      rcases apply_move_sequence_ok happ with rfl |
        ⟨i, ship, fin, hget, hh, hsunk, hsim, hcol, hcommit⟩
      · exact hwf
      have hmem : (p, i) ∈ b.ships := dictGet_some_mem hget
      have hlt : i < b.heap.length := hwf.ids_lt (p, i) hmem
      have hpos : ship.position = p := by
        obtain ⟨s', hs', hsp⟩ := hwf.pos_agree (p, i) hmem
        have hs2 : b.heap[i]? = some s' := hs'
        rw [hh, Option.some.injEq] at hs2
        rw [hs2]
        exact hsp
      rcases hcommit with ⟨hfp, rfl⟩ | ⟨hfp, rfl⟩
      · constructor
        · exact hwf.keys_nodup
        · exact hwf.ids_nodup
        · intro e he
          show e.2 < (b.heap.set i ⟨fin.position, fin.orientation, false⟩).length
          rw [List.length_set]
          exact hwf.ids_lt e he
        · intro e he
          by_cases hei : e.2 = i
          · have hefull : e = (p, i) := snd_nodup_inj hwf.ids_nodup he hmem hei
            subst hefull
            refine ⟨⟨fin.position, fin.orientation, false⟩, ?_, ?_⟩
            · show (b.heap.set i
                  (⟨fin.position, fin.orientation, false⟩ : Ship))[(p, i).2]?
                  = some ⟨fin.position, fin.orientation, false⟩
              exact List.getElem?_set_self hlt
            · show fin.position = p
              rw [hfp, hpos]
          · obtain ⟨s', hs', hsp⟩ := hwf.pos_agree e he
            refine ⟨s', ?_, hsp⟩
            show (b.heap.set i
                (⟨fin.position, fin.orientation, false⟩ : Ship))[e.2]? = some s'
            rw [List.getElem?_set_ne (Ne.symm hei)]
            exact hs'
        · show b.initial_ships_order
              = List.range (b.heap.set i
                  (⟨fin.position, fin.orientation, false⟩ : Ship)).length
          rw [List.length_set]
          exact hwf.order_eq
      · have hguard : dictGet b.ships ship.position = some i := by
          rw [hpos]
          exact hget
        rw [if_pos hguard]
        obtain ⟨hsubm, hkeyne, hidne, hkeysnd, hidsnd⟩ :=
          erase_facts hwf.keys_nodup hwf.ids_nodup hguard
        have hcolnone : dictGet b.ships fin.position = none := by
          cases hcolget : dictGet b.ships fin.position with
          | none => rfl
          | some j =>
              have hji : j = i := hcol j hcolget hfp
              subst hji
              have hmem2 : (fin.position, j) ∈ b.ships :=
                dictGet_some_mem hcolget
              have heq2 : ((fin.position, j) : Position × ShipId) = (p, j) :=
                snd_nodup_inj hwf.ids_nodup hmem2 hmem rfl
              have hfpp : fin.position = p := congrArg Prod.fst heq2
              exact ((hfp (hfpp.trans hpos.symm)).elim :)
        have hm1get :
            dictGet (dictErase b.ships ship.position) fin.position = none := by
          rw [dictGet_none_iff]
          intro e he
          exact dictGet_none_iff.mp hcolnone e (hsubm e he)
        have hins : dictInsert (dictErase b.ships ship.position) fin.position i
            = dictErase b.ships ship.position ++ [(fin.position, i)] :=
          dictInsert_of_get_none hm1get i
        constructor
        · show ((dictInsert (dictErase b.ships ship.position)
              fin.position i).map Prod.fst).Nodup
          rw [hins, List.map_append]
          refine nodup_append_singleton hkeysnd ?_
          intro hmm
          obtain ⟨e, he, hfst⟩ := List.mem_map.mp hmm
          exact dictGet_none_iff.mp hcolnone e (hsubm e he) hfst
        · show ((dictInsert (dictErase b.ships ship.position)
              fin.position i).map Prod.snd).Nodup
          rw [hins, List.map_append]
          refine nodup_append_singleton hidsnd ?_
          intro hmm
          obtain ⟨e, he, hsnd⟩ := List.mem_map.mp hmm
          exact hidne e he hsnd
        · intro e he
          have he2 : e ∈ dictErase b.ships ship.position
              ++ [(fin.position, i)] := by
            rw [← hins]
            exact he
          show e.2 < (b.heap.set i
              (⟨fin.position, fin.orientation, false⟩ : Ship)).length
          rw [List.length_set]
          rcases List.mem_append.mp he2 with h1 | h2
          · exact hwf.ids_lt e (hsubm e h1)
          · simp only [List.mem_singleton] at h2
            subst h2
            exact hlt
        · intro e he
          have he2 : e ∈ dictErase b.ships ship.position
              ++ [(fin.position, i)] := by
            rw [← hins]
            exact he
          rcases List.mem_append.mp he2 with h1 | h2
          · obtain ⟨s', hs', hsp⟩ := hwf.pos_agree e (hsubm e h1)
            refine ⟨s', ?_, hsp⟩
            show (b.heap.set i
                (⟨fin.position, fin.orientation, false⟩ : Ship))[e.2]? = some s'
            rw [List.getElem?_set_ne (Ne.symm (hidne e h1))]
            exact hs'
          · simp only [List.mem_singleton] at h2
            subst h2
            refine ⟨⟨fin.position, fin.orientation, false⟩, ?_, rfl⟩
            show (b.heap.set i
                (⟨fin.position, fin.orientation, false⟩ : Ship))[(fin.position, i).2]?
                = some ⟨fin.position, fin.orientation, false⟩
            exact List.getElem?_set_self hlt
        · show b.initial_ships_order
              = List.range (b.heap.set i
                  (⟨fin.position, fin.orientation, false⟩ : Ship)).length
          rw [List.length_set]
          exact hwf.order_eq

theorem wf_runOp {b : Board} (hwf : WF b) (op : Op) : WF (runOp b op) := by
  cases op with
  | add s => exact wf_add hwf s
  | move p seq => exact wf_move hwf p seq
  | shoot t => exact wf_shoot hwf t

theorem wf_run {b : Board} (hwf : WF b) (ops : List Op) : WF (run b ops) := by
  induction ops generalizing b with
  | nil => exact hwf
  | cons op rest ih =>
      show WF (run (runOp b op) rest)
      exact ih (wf_runOp hwf op)

/-- C6: board invariant — starting from an empty board, after any sequence of
operations (successful or failed), every map entry's ship has its `position`
field equal to its key, each ship object is keyed under at most one position,
and at most one ship occupies any given position (keys are distinct). -/
theorem board_invariant (size : Int) (ops : List Op) :
    (∀ e ∈ (run (Board.empty size) ops).ships,
        ∃ s, (run (Board.empty size) ops).heap[e.2]? = some s ∧
          s.position = e.1) ∧
    (∀ e ∈ (run (Board.empty size) ops).ships,
      ∀ f ∈ (run (Board.empty size) ops).ships, e.2 = f.2 → e = f) ∧
    ((run (Board.empty size) ops).ships.map Prod.fst).Nodup := by
  have hwf := wf_run (wf_empty size) ops
  exact ⟨hwf.pos_agree,
    fun e he f hf h2 => snd_nodup_inj hwf.ids_nodup he hf h2,
    hwf.keys_nodup⟩

/-- Witness for C6 at a concrete trace of one add, one move and one shoot. -/
theorem board_invariant_witness :
    ((run (Board.empty 3) [Op.add ⟨⟨1, 1⟩, .N, false⟩,
        Op.move ⟨1, 1⟩ [.M], Op.shoot ⟨1, 2⟩]).ships.map Prod.fst).Nodup :=
  (board_invariant 3 [Op.add ⟨⟨1, 1⟩, .N, false⟩,
    Op.move ⟨1, 1⟩ [.M], Op.shoot ⟨1, 2⟩]).2.2

theorem map_range_getD (l : List Ship) :
    (List.range l.length).map (fun i => ((l[i]?).getD default).toStr)
      = l.map Ship.toStr := by
  apply List.ext_getElem
  · simp
  · intro n h1 h2
    have hn : n < l.length := by simpa using h2
    simp [List.getElem?_eq_getElem hn]

/-- C9: final output — one string per ship ever successfully added, in
placement order (the order list is exactly the arena indices in creation
order), each rendered from the ship's current position and orientation as
"(x, y, ORIENTATION)" with " SUNK" appended exactly when sunk. -/
theorem get_final_ship_states_spec (size : Int) (ops : List Op) :
    (run (Board.empty size) ops).initial_ships_order
      = List.range (run (Board.empty size) ops).heap.length ∧
    (run (Board.empty size) ops).get_final_ship_states
      = (run (Board.empty size) ops).heap.map (fun s =>
          "(" ++ toString s.position.x ++ ", " ++ toString s.position.y
            ++ ", " ++ s.orientation.name ++ ")"
            ++ (if s.sunk then " SUNK" else "")) := by
  have hwf := wf_run (wf_empty size) ops
  refine ⟨hwf.order_eq, ?_⟩
  unfold Board.get_final_ship_states
  rw [hwf.order_eq, map_range_getD]
  rfl

/-- After a successful simulation of an unsunk ship, the collision error
fires exactly when the final position differs from the ship's position and a
different ship object is keyed there; otherwise the call succeeds. -/
theorem apply_move_collision_core {b : Board} {p : Position}
    {seq : List MoveCommand} {i : ShipId} {ship fin : Ship}
    (hget : dictGet b.ships p = some i) (hh : b.heap[i]? = some ship)
    (hsunk : ship.sunk = false) (hsim : b.simulate_move ship seq = .ok fin)
    (hpos : ship.position = p) :
    ((∃ q j, b.apply_move_sequence p seq = .error (.collision q j)) ↔
      (fin.position ≠ p ∧
        ∃ j, dictGet b.ships fin.position = some j ∧ j ≠ i)) ∧
    (¬(fin.position ≠ p ∧
        ∃ j, dictGet b.ships fin.position = some j ∧ j ≠ i) →
      ∃ b2, b.apply_move_sequence p seq = .ok b2) := by
  have hsuccess : ¬(fin.position ≠ p ∧
      ∃ j, dictGet b.ships fin.position = some j ∧ j ≠ i) →
      ∃ b2, b.apply_move_sequence p seq = .ok b2 := by
    intro hnot
    unfold Board.apply_move_sequence
    rw [hget]
    simp only []
    rw [hh]
    simp only [hsunk, Bool.false_eq_true, if_false]
    rw [hsim]
    simp only []
    cases hcol : dictGet b.ships fin.position with
    | none =>
        simp only []
        by_cases hfp : fin.position = ship.position
        · exact ⟨_, by rw [if_neg (by simp [hfp])]⟩
        · exact ⟨_, by rw [if_pos hfp]⟩
    | some j =>
        simp only []
        have hji : fin.position = p ∨ j = i := by
          by_cases hfpp : fin.position = p
          · exact Or.inl hfpp
          · right
            by_contra hjine
            exact hnot ⟨hfpp, j, hcol, hjine⟩
        have hcond : ¬(fin.position ≠ ship.position ∧ j ≠ i) := by
          rcases hji with h1 | h2
          · intro hc
            exact hc.1 (h1.trans hpos.symm)
          · intro hc
            exact hc.2 h2
        rw [if_neg hcond]
        by_cases hfp : fin.position = ship.position
        · exact ⟨_, by rw [if_neg (by simp [hfp])]⟩
        · exact ⟨_, by rw [if_pos hfp]⟩
  refine ⟨⟨?_, ?_⟩, hsuccess⟩
  · intro hex
    by_contra hnot
    obtain ⟨b2, hb2⟩ := hsuccess hnot
    obtain ⟨q, j, hqj⟩ := hex
    rw [hb2] at hqj
    exact Except.noConfusion hqj
  · rintro ⟨hfin, j, hcol, hji⟩
    refine ⟨fin.position, j, ?_⟩
    unfold Board.apply_move_sequence
    rw [hget]
    simp only []
    rw [hh]
    simp only [hsunk, Bool.false_eq_true, if_false]
    rw [hsim]
    simp only []
    rw [hcol]
    simp only []
    rw [if_pos ⟨fun hc => hfin (hc.trans hpos), hji⟩]

/-- C2: only the final destination is collision-checked — on any reachable
board, given the ship found at the start and its successful simulation, the
call raises a collision error exactly when the simulated final position
differs from the start and a different ship is keyed there; intermediate
cells never block, and otherwise the call succeeds. -/
theorem collision_only_final_destination (size : Int) (ops : List Op)
    (p : Position) (seq : List MoveCommand) (i : ShipId) (ship fin : Ship)
    (hget : dictGet (run (Board.empty size) ops).ships p = some i)
    (hh : (run (Board.empty size) ops).heap[i]? = some ship)
    (hsunk : ship.sunk = false)
    (hsim : (run (Board.empty size) ops).simulate_move ship seq = .ok fin) :
    ((∃ q j, (run (Board.empty size) ops).apply_move_sequence p seq
        = .error (.collision q j)) ↔
      (fin.position ≠ p ∧
        ∃ j, dictGet (run (Board.empty size) ops).ships fin.position
          = some j ∧ j ≠ i)) ∧
    (¬(fin.position ≠ p ∧
        ∃ j, dictGet (run (Board.empty size) ops).ships fin.position
          = some j ∧ j ≠ i) →
      ∃ b2, (run (Board.empty size) ops).apply_move_sequence p seq
        = .ok b2) := by
  have hwf := wf_run (wf_empty size) ops
  have hmem : (p, i) ∈ (run (Board.empty size) ops).ships :=
    dictGet_some_mem hget
  have hpos : ship.position = p := by
    obtain ⟨s', hs', hsp⟩ := hwf.pos_agree (p, i) hmem
    have hs2 : (run (Board.empty size) ops).heap[i]? = some s' := hs'
    rw [hh, Option.some.injEq] at hs2
    rw [hs2]
    exact hsp
  exact apply_move_collision_core hget hh hsunk hsim hpos

/-- Witness for C2 at a concrete trace: a ship at (0, 0) moving M, M onto a
cell occupied by the ship placed at (0, 2) raises a collision error. -/
theorem collision_only_final_destination_witness :
    ∃ q j, (run (Board.empty 5) [Op.add ⟨⟨0, 0⟩, .N, false⟩,
        Op.add ⟨⟨0, 2⟩, .N, false⟩]).apply_move_sequence ⟨0, 0⟩ [.M, .M]
      = .error (.collision q j) :=
  (collision_only_final_destination 5
    [Op.add ⟨⟨0, 0⟩, .N, false⟩, Op.add ⟨⟨0, 2⟩, .N, false⟩]
    ⟨0, 0⟩ [.M, .M] 0 ⟨⟨0, 0⟩, .N, false⟩ ⟨⟨0, 2⟩, .N, false⟩
    (by rfl) (by rfl) rfl (by rfl)).1.mpr
    ⟨by decide, 1, by rfl, by decide⟩

end Battleship
